import Mathlib

/-!
Verification of the download-and-bundle utility (`download.py`).

The script reads links from a text file, downloads each URL with a retry
loop, collects the successfully downloaded local paths in completion
order, partitions them into groups of `BUNDLE_SIZE`, and writes each
group to a zip archive `bundles/bundle-{idx:03d}.zip`.

Strings are modelled as `List Char`.  Effectful pieces (network attempts,
archive writes) are modelled by oracle functions; the retry loop records
its observable effects (attempt count, sleep durations) in a trace.
-/

namespace Download

/-! ## Definitions

### Chunking (`main`)

`bundles = [downloaded[i:i+BUNDLE_SIZE] for i in range(0, total, BUNDLE_SIZE)]`

`pyRangeGo` models Python's `range(0, stop, step)` by iterating `cur`
from 0 while `cur < stop`, with enough fuel to cover every iteration
(for `step ≥ 1`, at most `stop` iterations occur, so fuel `stop + 1`
is never exhausted). -/

def pyRangeGo (stop step : Nat) : Nat → Nat → List Nat
  | _, 0 => []
  | cur, fuel + 1 => if cur < stop then cur :: pyRangeGo stop step (cur + step) fuel else []

def pyRange (stop step : Nat) : List Nat :=
  pyRangeGo stop step 0 (stop + 1)

/-- `downloaded[i:i+g]` for `i ≥ 0`: the slice of length at most `g`
starting at index `i`. -/
def pySlice (l : List α) (i g : Nat) : List α :=
  (l.drop i).take g

/-- The bundling list comprehension of `main`:
`[downloaded[i:i+BUNDLE_SIZE] for i in range(0, total, BUNDLE_SIZE)]`. -/
def pyChunks (g : Nat) (l : List α) : List (List α) :=
  (pyRange l.length g).map (fun i => pySlice l i g)

/-- Recursive characterisation of the chunking (used for the proofs):
peel off `take g` and recurse on `drop g`, with fuel bounding the
recursion depth. -/
def chunksRec (g : Nat) : Nat → List α → List (List α)
  | _, [] => []
  | 0, _ => []
  | fuel + 1, l => l.take g :: chunksRec g fuel (l.drop g)

/-! ### Line handling (`read_links`)

```
line = line.strip()
if line and not line.startswith("#"):
    yield line
```
-/

/-- The whitespace characters removed by Python's `str.strip()`
(ASCII subset, which covers text lines read from the link file). -/
def pySpace (c : Char) : Bool :=
  c == ' ' || c == '\t' || c == '\n' || c == '\r' || c == '\x0b' || c == '\x0c'

/-- `line.strip()`: remove leading and trailing whitespace. -/
def pyStrip (l : List Char) : List Char :=
  ((l.dropWhile pySpace).reverse.dropWhile pySpace).reverse

/-- `line.startswith("#")` for a one-character needle. -/
def startsWithHash : List Char → Bool
  | [] => false
  | c :: _ => c == '#'

/-- One iteration of the `read_links` generator body: strip the line and
yield it when it is non-empty and not a comment. -/
def procLine (line : List Char) : Option (List Char) :=
  if !(pyStrip line).isEmpty && !startsWithHash (pyStrip line) then some (pyStrip line)
  else none

/-- `read_links`: the yielded URLs, in file order. -/
def read_links (lines : List (List Char)) : List (List Char) :=
  lines.filterMap procLine

/-! ### Filename derivation (`_fetch`)

`fname = Path(url).name or "download.zip"`.

`pathlib.PurePosixPath` parses a string by splitting on `/` and
discarding empty components and `.` components; `.name` is the last
remaining component (or the empty string when none remains). -/

/-- Python `str.split("/")`. -/
def splitSlash : List Char → List (List Char)
  | [] => [[]]
  | c :: cs =>
    match splitSlash cs with
    | [] => [[c]]
    | h :: t => if c == '/' then [] :: h :: t else (c :: h) :: t

/-- The path components kept by `pathlib` parsing: split on `/`, drop
empty components and `.` components. -/
def pathParts (s : List Char) : List (List Char) :=
  (splitSlash s).filter (fun p => !(p.isEmpty || p == ['.']))

/-- `Path(s).name`: the last component, or empty when there is none. -/
def pathName (s : List Char) : List Char :=
  (pathParts s).getLastD []

/-- `Path(url).name or "download.zip"` from `_fetch`. -/
def fetchFname (url : List Char) : List Char :=
  if (pathName url).isEmpty then "download.zip".toList else pathName url

/-- The filename rule as worded by the spec: the URL's final path
segment is the text after the last `/` (`(splitSlash url).getLastD []`),
with the fallback when that segment is empty.  Stated from the spec's
words, for comparison with `fetchFname`, which is taken from the source. -/
def specFname (url : List Char) : List Char :=
  if ((splitSlash url).getLastD []).isEmpty then "download.zip".toList
  else (splitSlash url).getLastD []

/-! ### Module constants -/

def DOWNLOAD_DIR : List Char := "downloads".toList

def BUNDLE_DIR : List Char := "bundles".toList

def RETRY : Nat := 3

def BUNDLE_SIZE : Nat := 10

/-! ### The fetch stage (`_fetch` and the thread-pool loop of `main`)

A download attempt is modelled by an oracle `att : Nat → Except ε Unit`:
`att a` is the outcome of attempt number `a` (attempts are numbered from
1 as in `range(1, RETRY + 1)`); `Except.error e` means the attempt
raised exception `e` (network error, HTTP error status via
`raise_for_status`, timeout, or filesystem write error), `Except.ok`
means the body was written to the target file.  `fetchGo` iterates the
loop body over the attempt numbers and records the observable effects:
the returned value, the number of attempts made, and the argument of
each `time.sleep(2 ** attempt)` call, in order. -/

def isSuccess {ε α : Type} : Except ε α → Bool
  | Except.ok _ => true
  | Except.error _ => false

/-- `target = dest / fname` for a successful attempt on `url`. -/
def targetOf (dest url : List Char) : List Char :=
  dest ++ '/' :: fetchFname url

structure FetchTrace where
  result : Option (List Char)
  attempts : Nat
  sleeps : List Nat

/-- The retry loop body of `_fetch`, iterated over the remaining attempt
numbers.  The `[]` case corresponds to the loop running out of
iterations (reachable only when `RETRY ≤ 0`, where the Python function
falls off the end). -/
def fetchGo {ε : Type} (url dest : List Char) (att : Nat → Except ε Unit) (retry : Nat) :
    List Nat → FetchTrace
  | [] => { result := none, attempts := 0, sleeps := [] }
  | a :: rest =>
    match att a with
    | Except.ok _ => { result := some (targetOf dest url), attempts := 1, sleeps := [] }
    | Except.error _ =>
      if a = retry then { result := none, attempts := 1, sleeps := [] }
      else
        let t := fetchGo url dest att retry rest
        { result := t.result, attempts := t.attempts + 1, sleeps := 2 ^ a :: t.sleeps }

/-- `_fetch(url, dest)`: run the retry loop over `range(1, retry + 1)`. -/
def fetchTrace {ε : Type} (url dest : List Char) (att : Nat → Except ε Unit)
    (retry : Nat) : FetchTrace :=
  fetchGo url dest att retry (List.range' 1 retry)

/-- The value `_fetch` returns: `(url, local_path | None)`. -/
def fetchResult {ε : Type} (url dest : List Char) (att : Nat → Except ε Unit)
    (retry : Nat) : List Char × Option (List Char) :=
  (url, (fetchTrace url dest att retry).result)

/-- The fetch stage of `main`: one future per submitted URL, results
gathered in completion order (`order`, a permutation of the input
links). -/
def fetchAll {ε : Type} (dest : List Char) (atts : List Char → Nat → Except ε Unit)
    (retry : Nat) (order : List (List Char)) : List (List Char × Option (List Char)) :=
  order.map (fun u => fetchResult u dest (atts u) retry)

/-- The collection loop of `main`: `if local_path: downloaded.append(local_path)`
(a `Path` object is never falsy, so the test is `local_path is not None`). -/
def successPaths (results : List (List Char × Option (List Char))) : List (List Char) :=
  results.filterMap (fun r => r.2)

/-! ### Bundle writing (`create_bundle` and the bundling loop of `main`) -/

/-- `f"{idx:03d}"`: decimal digits, left-padded with `0` to width 3. -/
def pad3 (n : Nat) : List Char :=
  List.replicate (3 - (Nat.toDigits 10 n).length) '0' ++ Nat.toDigits 10 n

/-- `BUNDLE_DIR / f"bundle-{idx:03d}.zip"`. -/
def bundlePath (idx : Nat) : List Char :=
  BUNDLE_DIR ++ '/' :: ("bundle-".toList ++ pad3 idx ++ ".zip".toList)

/-- A written zip archive: its path and its member names, in write order. -/
structure Archive where
  path : List Char
  members : List (List Char)

/-- `create_bundle(files, idx)`: one archive at `bundles/bundle-{idx:03d}.zip`
whose members are the files under their base filenames (`arcname=f.name`). -/
def create_bundle (files : List (List Char)) (idx : Nat) : Archive :=
  { path := bundlePath idx, members := files.map pathName }

/-- `for idx, group in enumerate(bundles, 1): create_bundle(group, idx)`. -/
def bundleLoop : List (List (List Char)) → Nat → List Archive
  | [], _ => []
  | grp :: rest, idx => create_bundle grp idx :: bundleLoop rest (idx + 1)

def mainBundles (downloaded : List (List Char)) : List Archive :=
  bundleLoop (pyChunks BUNDLE_SIZE downloaded) 1

/-- Outcome of the bundling stage of `main`: the `total == 0` early
return (which prints its own distinct message and creates nothing) or
the list of archives written. -/
inductive BundleStage where
  | noDownloads : BundleStage
  | made : List Archive → BundleStage

def mainBundleStage (downloaded : List (List Char)) : BundleStage :=
  if downloaded.length = 0 then BundleStage.noDownloads
  else BundleStage.made (mainBundles downloaded)

/-- The bundling loop with a fallible archive writer `w` (modelling
`zipfile` writes that may raise).  There is no handler in the source, so
an exception aborts the loop and propagates. -/
def bundleLoopE {ε : Type} (w : Nat → List (List Char) → Except ε Archive) :
    List (List (List Char)) → Nat → Except ε (List Archive)
  | [], _ => Except.ok []
  | grp :: rest, idx =>
    match w idx grp with
    | Except.error e => Except.error e
    | Except.ok a =>
      match bundleLoopE w rest (idx + 1) with
      | Except.error e => Except.error e
      | Except.ok as => Except.ok (a :: as)

/-! ## Chunking lemmas -/

theorem chunksRec_nil (g fuel : Nat) : chunksRec g fuel ([] : List α) = [] := by
  cases fuel <;> rfl

theorem chunksRec_zero (g : Nat) (l : List α) : chunksRec g 0 l = [] := by
  cases l <;> rfl

theorem chunksRec_cons (g fuel : Nat) (l : List α) (hl : l ≠ []) :
    chunksRec g (fuel + 1) l = l.take g :: chunksRec g fuel (l.drop g) := by
  cases l with
  | nil => exact absurd rfl hl
  | cons a t => rfl

theorem pyRangeGo_map_slice {α : Type} (g : Nat) (hg : 0 < g) (l : List α) :
    ∀ (fuel cur : Nat), l.length ≤ cur + fuel →
      (pyRangeGo l.length g cur fuel).map (fun i => pySlice l i g)
        = chunksRec g fuel (l.drop cur) := by
  intro fuel
  induction fuel with
  | zero =>
    intro cur h
    have hdrop : l.drop cur = [] := List.drop_eq_nil_of_le (by omega)
    simp [pyRangeGo, hdrop, chunksRec_nil]
  | succ f ih =>
    intro cur h
    by_cases hcur : cur < l.length
    · have hne : l.drop cur ≠ [] := by
        intro hnil
        have hld := List.length_drop cur l
        rw [hnil] at hld
        simp only [List.length_nil] at hld
        omega
      rw [pyRangeGo]
      rw [if_pos hcur]
      rw [List.map_cons]
      rw [chunksRec_cons g f (l.drop cur) hne]
      have htail : (pyRangeGo l.length g (cur + g) f).map (fun i => pySlice l i g)
          = chunksRec g f (l.drop (cur + g)) := ih (cur + g) (by omega)
      rw [htail]
      have hdd : (l.drop cur).drop g = l.drop (cur + g) := by
        rw [List.drop_drop]
      rw [hdd]
      rfl
    · have hdrop : l.drop cur = [] := List.drop_eq_nil_of_le (by omega)
      rw [pyRangeGo]
      rw [if_neg hcur]
      simp [hdrop, chunksRec_nil]

theorem pyChunks_eq_chunksRec {α : Type} (g : Nat) (hg : 0 < g) (l : List α) :
    pyChunks g l = chunksRec g (l.length + 1) l := by
  have h := pyRangeGo_map_slice g hg l (l.length + 1) 0 (by omega)
  simpa [pyChunks, pyRange] using h

theorem chunksRec_flatten {α : Type} (g : Nat) (hg : 0 < g) :
    ∀ (fuel : Nat) (l : List α), l.length ≤ fuel →
      (chunksRec g fuel l).flatten = l := by
  intro fuel
  induction fuel with
  | zero =>
    intro l h
    have hl : l = [] := List.length_eq_zero.mp (by omega)
    subst hl
    simp [chunksRec_nil]
  | succ f ih =>
    intro l h
    cases l with
    | nil => simp [chunksRec_nil]
    | cons a t =>
      have hlc : (a :: t).length = t.length + 1 := List.length_cons a t
      rw [chunksRec_cons g f (a :: t) (by simp)]
      rw [List.flatten_cons]
      have hfuel : ((a :: t).drop g).length ≤ f := by
        rw [List.length_drop, hlc]
        omega
      rw [ih ((a :: t).drop g) hfuel]
      exact List.take_append_drop g (a :: t)

theorem chunksRec_length {α : Type} (g : Nat) (hg : 0 < g) :
    ∀ (fuel : Nat) (l : List α), l.length ≤ fuel →
      (chunksRec g fuel l).length = (l.length + g - 1) / g := by
  intro fuel
  induction fuel with
  | zero =>
    intro l h
    have hl : l = [] := List.length_eq_zero.mp (by omega)
    subst hl
    simp only [chunksRec_nil, List.length_nil, Nat.zero_add]
    exact (Nat.div_eq_of_lt (by omega)).symm
  | succ f ih =>
    intro l h
    cases l with
    | nil =>
      simp only [chunksRec_nil, List.length_nil, Nat.zero_add]
      exact (Nat.div_eq_of_lt (by omega)).symm
    | cons a t =>
      have hlc : (a :: t).length = t.length + 1 := List.length_cons a t
      rw [chunksRec_cons g f (a :: t) (by simp)]
      rw [List.length_cons]
      have hfuel : ((a :: t).drop g).length ≤ f := by
        rw [List.length_drop, hlc]
        omega
      rw [ih ((a :: t).drop g) hfuel]
      rw [List.length_drop, hlc]
      by_cases hle : t.length + 1 ≤ g
      · have h1 : t.length + 1 - g = 0 := by omega
        rw [h1]
        have h2 : (0 + g - 1) / g = 0 := Nat.div_eq_of_lt (by omega)
        rw [h2]
        have h3 : (t.length + 1 + g - 1) / g = 1 := by
          apply Nat.div_eq_of_lt_le
          · omega
          · omega
        rw [h3]
      · have h2 : t.length + 1 + g - 1 = (t.length + 1 - g + g - 1) + g := by omega
        rw [h2]
        rw [Nat.add_div_right _ hg]

theorem chunksRec_mem_length_le {α : Type} (g : Nat) :
    ∀ (fuel : Nat) (l : List α) (c : List α), c ∈ chunksRec g fuel l → c.length ≤ g := by
  intro fuel
  induction fuel with
  | zero =>
    intro l c hc
    rw [chunksRec_zero] at hc
    simp at hc
  | succ f ih =>
    intro l c hc
    cases l with
    | nil =>
      rw [chunksRec_nil] at hc
      simp at hc
    | cons a t =>
      rw [chunksRec_cons g f (a :: t) (by simp)] at hc
      rcases List.mem_cons.mp hc with h | h
      · subst h
        exact List.length_take_le g (a :: t)
      · exact ih _ c h

theorem chunksRec_dropLast_length {α : Type} (g : Nat) (hg : 0 < g) :
    ∀ (fuel : Nat) (l : List α) (c : List α),
      l.length ≤ fuel → c ∈ (chunksRec g fuel l).dropLast → c.length = g := by
  intro fuel
  induction fuel with
  | zero =>
    intro l c h hc
    have hl : l = [] := List.length_eq_zero.mp (by omega)
    subst hl
    simp [chunksRec_nil] at hc
  | succ f ih =>
    intro l c h hc
    cases l with
    | nil => simp [chunksRec_nil] at hc
    | cons a t =>
      have hlc : (a :: t).length = t.length + 1 := List.length_cons a t
      rw [chunksRec_cons g f (a :: t) (by simp)] at hc
      cases hrest : chunksRec g f ((a :: t).drop g) with
      | nil =>
        rw [hrest] at hc
        simp at hc
      | cons b bs =>
        rw [hrest] at hc
        rw [List.dropLast_cons_of_ne_nil (by simp)] at hc
        rcases List.mem_cons.mp hc with hh | hh
        · subst hh
          have hdne : (a :: t).drop g ≠ [] := by
            intro hnil
            rw [hnil, chunksRec_nil] at hrest
            exact List.noConfusion hrest
          have hlen : g < (a :: t).length := by
            by_contra hle
            exact hdne (List.drop_eq_nil_of_le (by omega))
          rw [List.length_take]
          rw [hlc] at hlen
          rw [hlc]
          omega
        · rw [← hrest] at hh
          have hfuel : ((a :: t).drop g).length ≤ f := by
            rw [List.length_drop, hlc]
            omega
          exact ih ((a :: t).drop g) c hfuel hh

theorem chunksRec_map_length {α : Type} (g : Nat) (hg : 0 < g) :
    ∀ (fuel : Nat) (l : List α), l.length ≤ fuel → l ≠ [] →
      (chunksRec g fuel l).map List.length
        = List.replicate ((chunksRec g fuel l).length - 1) g
          ++ [if l.length % g = 0 then g else l.length % g] := by
  intro fuel
  induction fuel with
  | zero =>
    intro l h hne
    have hl : l = [] := List.length_eq_zero.mp (by omega)
    exact absurd hl hne
  | succ f ih =>
    intro l h hne
    cases l with
    | nil => exact absurd rfl hne
    | cons a t =>
      have hlc : (a :: t).length = t.length + 1 := List.length_cons a t
      rw [chunksRec_cons g f (a :: t) (by simp)]
      by_cases hle : t.length + 1 ≤ g
      · have hdrop : (a :: t).drop g = [] := List.drop_eq_nil_of_le (by omega)
        rw [hdrop, chunksRec_nil]
        simp only [List.map_cons, List.map_nil, List.length_cons, List.length_nil]
        have htake : ((a :: t).take g).length = t.length + 1 := by
          rw [List.length_take, hlc]
          omega
        rw [htake]
        by_cases hmod : (t.length + 1) % g = 0
        · have hNg : t.length + 1 = g := by
            rcases Nat.lt_or_ge (t.length + 1) g with hlt | hge
            · rw [Nat.mod_eq_of_lt hlt] at hmod
              omega
            · omega
          rw [if_pos hmod, hNg]
          rfl
        · have hlt : t.length + 1 < g := by
            rcases Nat.lt_or_ge (t.length + 1) g with hlt | hge
            · exact hlt
            · exfalso
              have heq : t.length + 1 = g := by omega
              rw [heq, Nat.mod_self] at hmod
              exact hmod rfl
          have hid : (t.length + 1) % g = t.length + 1 := Nat.mod_eq_of_lt hlt
          rw [if_neg hmod, hid]
          rfl
      · have hdne : (a :: t).drop g ≠ [] := by
          intro hnil
          have hld := List.length_drop g (a :: t)
          rw [hnil, hlc] at hld
          simp only [List.length_nil] at hld
          omega
        have hfuel : ((a :: t).drop g).length ≤ f := by
          rw [List.length_drop, hlc]
          omega
        rw [List.map_cons]
        rw [ih ((a :: t).drop g) hfuel hdne]
        have hlast : ((a :: t).drop g).length % g = (a :: t).length % g := by
          rw [List.length_drop, hlc]
          have hsplit : t.length + 1 = (t.length + 1 - g) + g := by omega
          conv_rhs => rw [hsplit]
          rw [Nat.add_mod_right]
        rw [hlast]
        have hcl : (chunksRec g f ((a :: t).drop g)).length
            = (((a :: t).drop g).length + g - 1) / g :=
          chunksRec_length g hg f _ hfuel
        have hpos : 0 < (chunksRec g f ((a :: t).drop g)).length := by
          rw [hcl, List.length_drop, hlc]
          have h1 : g ≤ t.length + 1 - g + g - 1 := by omega
          have h2 := Nat.div_le_div_right (c := g) h1
          rw [Nat.div_self hg] at h2
          omega
        have hlen2 : (List.take g (a :: t) :: chunksRec g f ((a :: t).drop g)).length - 1
            = ((chunksRec g f ((a :: t).drop g)).length - 1) + 1 := by
          rw [List.length_cons]
          omega
        rw [hlen2]
        rw [List.replicate_succ]
        have htake : ((a :: t).take g).length = g := by
          rw [List.length_take, hlc]
          omega
        rw [htake]
        simp [hlc]

/-! ## Claim C1 -/

/-- Claim C1: for every list of downloaded file paths and every group
size `G > 0`, the bundling comprehension of `main` partitions the list
into contiguous chunks of at most `G` files, producing exactly
`ceil(N/G)` bundles; every bundle except possibly the last has exactly
`G` files, the last has `N mod G` files if that is nonzero and `G`
otherwise, and concatenating the bundles in order reproduces the input
list exactly, in order. -/
theorem bundles_partition (g : Nat) (hg : 0 < g) (l : List (List Char)) :
    (pyChunks g l).length = (l.length + g - 1) / g
    ∧ (pyChunks g l).flatten = l
    ∧ (∀ c ∈ pyChunks g l, c.length ≤ g)
    ∧ (∀ c ∈ (pyChunks g l).dropLast, c.length = g)
    ∧ (l ≠ [] → (pyChunks g l).map List.length
        = List.replicate ((pyChunks g l).length - 1) g
          ++ [if l.length % g = 0 then g else l.length % g]) := by
  rw [pyChunks_eq_chunksRec g hg l]
  exact ⟨chunksRec_length g hg _ l (by omega),
    chunksRec_flatten g hg _ l (by omega),
    fun c hc => chunksRec_mem_length_le g _ l c hc,
    fun c hc => chunksRec_dropLast_length g hg _ l c (by omega) hc,
    fun hne => chunksRec_map_length g hg _ l (by omega) hne⟩

/-- Concrete instance of `bundles_partition`: 5 paths with group size 3
give 2 bundles of sizes 3 and 2, whose concatenation is the input. -/
theorem bundles_partition_witness :
    0 < 3
    ∧ ((pyChunks 3 [['a'], ['b'], ['c'], ['d'], ['e']]).length
        = (([['a'], ['b'], ['c'], ['d'], ['e']] : List (List Char)).length + 3 - 1) / 3
    ∧ (pyChunks 3 [['a'], ['b'], ['c'], ['d'], ['e']]).flatten
        = [['a'], ['b'], ['c'], ['d'], ['e']]
    ∧ (∀ c ∈ pyChunks 3 [['a'], ['b'], ['c'], ['d'], ['e']], c.length ≤ 3)
    ∧ (∀ c ∈ (pyChunks 3 [['a'], ['b'], ['c'], ['d'], ['e']]).dropLast, c.length = 3)
    ∧ (([['a'], ['b'], ['c'], ['d'], ['e']] : List (List Char)) ≠ [] →
        (pyChunks 3 [['a'], ['b'], ['c'], ['d'], ['e']]).map List.length
        = List.replicate ((pyChunks 3 [['a'], ['b'], ['c'], ['d'], ['e']]).length - 1) 3
          ++ [if ([['a'], ['b'], ['c'], ['d'], ['e']] : List (List Char)).length % 3 = 0
              then 3 else ([['a'], ['b'], ['c'], ['d'], ['e']] : List (List Char)).length % 3])) :=
  ⟨by decide, bundles_partition 3 (by decide) [['a'], ['b'], ['c'], ['d'], ['e']]⟩

/-! ## Fetch lemmas -/

/-- When every attempt fails, the retry loop started at attempt `a` with
`k` attempt numbers left (ending exactly at `retry`) makes all `k`
attempts, returns a failed result, and sleeps `2^i` seconds after each
attempt `i` except the last. -/
theorem fetchGo_all_fail {ε : Type} (url dest : List Char) (att : Nat → Except ε Unit)
    (retry : Nat) (hfail : ∀ n, isSuccess (att n) = false) :
    ∀ (k a : Nat), 0 < k → a + k = retry + 1 →
      fetchGo url dest att retry (List.range' a k)
        = { result := none, attempts := k,
            sleeps := (List.range' a (k - 1)).map (fun i => 2 ^ i) } := by
  intro k
  induction k with
  | zero =>
    intro a h0 hsum
    exact absurd h0 (by omega)
  | succ kk ih =>
    intro a h0 hsum
    rw [List.range'_succ]
    have ha := hfail a
    cases hatt : att a with
    | ok v =>
      rw [hatt] at ha
      simp [isSuccess] at ha
    | error e =>
      simp only [fetchGo, hatt]
      by_cases hlast : a = retry
      · have hkk : kk = 0 := by omega
        subst hkk
        rw [if_pos hlast]
        rfl
      · rw [if_neg hlast]
        have hkk : 0 < kk := by omega
        rw [ih (a + 1) hkk (by omega)]
        have hsplit : kk + 1 - 1 = (kk - 1) + 1 := by omega
        have hr : List.range' a (kk + 1 - 1) = a :: List.range' (a + 1) (kk - 1) := by
          rw [hsplit, List.range'_succ]
        rw [hr]
        rfl

/-- The trace of the retry loop depends on the attempt oracle only
through which attempts succeed: the exception values themselves never
influence the outcome. -/
theorem fetchGo_pattern_congr {ε₁ ε₂ : Type} (url dest : List Char)
    (att₁ : Nat → Except ε₁ Unit) (att₂ : Nat → Except ε₂ Unit) (retry : Nat)
    (hsame : ∀ n, isSuccess (att₁ n) = isSuccess (att₂ n)) :
    ∀ l : List Nat, fetchGo url dest att₁ retry l = fetchGo url dest att₂ retry l := by
  intro l
  induction l with
  | nil => rfl
  | cons a rest ih =>
    have hs := hsame a
    cases h1 : att₁ a with
    | ok v =>
      cases h2 : att₂ a with
      | ok w => simp only [fetchGo, h1, h2]
      | error e =>
        rw [h1, h2] at hs
        simp [isSuccess] at hs
    | error e =>
      cases h2 : att₂ a with
      | ok w =>
        rw [h1, h2] at hs
        simp [isSuccess] at hs
      | error f =>
        simp only [fetchGo, h1, h2]
        rw [ih]

/-! ## Claim C2 -/

/-- Claim C2: for every URL whose every download attempt fails, `_fetch`
makes exactly `retry` attempts, then returns a failed result; between
consecutive attempts it sleeps `2^attempt` seconds with attempts counted
from 1 (so the sleep list is `[2^1, ..., 2^(retry-1)]`: no sleep before
the first attempt and none after the final one). -/
theorem fetch_retry_count {ε : Type} (url dest : List Char) (att : Nat → Except ε Unit)
    (retry : Nat) (hr : 0 < retry) (hfail : ∀ n, isSuccess (att n) = false) :
    (fetchTrace url dest att retry).attempts = retry
    ∧ (fetchTrace url dest att retry).result = none
    ∧ (fetchTrace url dest att retry).sleeps
        = (List.range' 1 (retry - 1)).map (fun i => 2 ^ i) := by
  have h := fetchGo_all_fail url dest att retry hfail retry 1 hr (by omega)
  rw [fetchTrace, h]
  exact ⟨rfl, rfl, rfl⟩

/-- Concrete instance of `fetch_retry_count`: with `RETRY = 3` and an
always-failing oracle, exactly 3 attempts are made and the sleeps are
2 s then 4 s. -/
theorem fetch_retry_count_witness :
    0 < RETRY
    ∧ (fetchTrace "http://u".toList DOWNLOAD_DIR
        (fun _ => (Except.error () : Except Unit Unit)) RETRY).attempts = RETRY
    ∧ (fetchTrace "http://u".toList DOWNLOAD_DIR
        (fun _ => (Except.error () : Except Unit Unit)) RETRY).result = none
    ∧ (fetchTrace "http://u".toList DOWNLOAD_DIR
        (fun _ => (Except.error () : Except Unit Unit)) RETRY).sleeps = [2, 4] := by
  have h := fetch_retry_count "http://u".toList DOWNLOAD_DIR
    (fun _ => (Except.error () : Except Unit Unit)) RETRY (by decide) (fun _ => rfl)
  refine ⟨by decide, h.1, h.2.1, ?_⟩
  rw [h.2.2]
  decide

/-! ## Claim C3 -/

/-- Claim C3: every exception raised during a download attempt is
contained inside `_fetch`.  First conjunct: the trace depends only on
which attempts fail, never on the exception value, so an exception can
only trigger a retry or contribute to a failed result.  Second conjunct:
when every attempt raises, `_fetch` returns a failed result (`None`
path) instead of propagating.  Third conjunct: in the batch, the result
at each position is computed from that URL's own oracle alone, so one
URL's exceptions never abort the processing of other URLs. -/
theorem fetch_exception_containment :
    (∀ (ε₁ ε₂ : Type) (url dest : List Char) (att₁ : Nat → Except ε₁ Unit)
        (att₂ : Nat → Except ε₂ Unit) (retry : Nat),
      (∀ n, isSuccess (att₁ n) = isSuccess (att₂ n)) →
      fetchTrace url dest att₁ retry = fetchTrace url dest att₂ retry)
    ∧ (∀ (ε : Type) (url dest : List Char) (att : Nat → Except ε Unit) (retry : Nat),
      (∀ n, isSuccess (att n) = false) →
      (fetchTrace url dest att retry).result = none)
    ∧ (∀ (ε : Type) (dest : List Char) (atts : List Char → Nat → Except ε Unit)
        (retry : Nat) (order : List (List Char)) (i : Nat)
        (hi : i < order.length) (hi2 : i < (fetchAll dest atts retry order).length),
      (fetchAll dest atts retry order)[i]
        = fetchResult order[i] dest (atts order[i]) retry) := by
  refine ⟨?_, ?_, ?_⟩
  · intro ε₁ ε₂ url dest att₁ att₂ retry hsame
    rw [fetchTrace, fetchTrace]
    exact fetchGo_pattern_congr url dest att₁ att₂ retry hsame _
  · intro ε url dest att retry hfail
    rcases Nat.eq_zero_or_pos retry with hz | hp
    · subst hz
      rfl
    · have h := fetchGo_all_fail url dest att retry hfail retry 1 hp (by omega)
      rw [fetchTrace, h]
  · intro ε dest atts retry order i hi hi2
    simp only [fetchAll, List.getElem_map]

/-- Concrete instance of `fetch_exception_containment`: two oracles that
fail every attempt with different exception types (and values) produce
identical traces. -/
theorem fetch_exception_containment_witness :
    fetchTrace "http://u".toList DOWNLOAD_DIR
        (fun _ => (Except.error () : Except Unit Unit)) RETRY
      = fetchTrace "http://u".toList DOWNLOAD_DIR
        (fun _ => (Except.error true : Except Bool Unit)) RETRY :=
  fetch_exception_containment.1 Unit Bool "http://u".toList DOWNLOAD_DIR
    (fun _ => Except.error ()) (fun _ => Except.error true) RETRY (fun _ => rfl)

/-! ## Claim C4 -/

/-- Claim C4: for every non-empty list of input URLs, the fetch stage
produces exactly one download result per input URL — the number of
results equals the number of URLs, and the URLs carried by the results
are exactly the input URLs (as a multiset) — regardless of which URLs
succeed or fail and of the completion order. -/
theorem fetchAll_cardinality {ε : Type} (dest : List Char)
    (atts : List Char → Nat → Except ε Unit) (retry : Nat)
    (links order : List (List Char)) (_hne : links ≠ [])
    (hperm : order.Perm links) :
    (fetchAll dest atts retry order).length = links.length
    ∧ ((fetchAll dest atts retry order).map Prod.fst).Perm links := by
  have hfst : (fetchAll dest atts retry order).map Prod.fst = order := by
    rw [fetchAll, List.map_map]
    have hcomp : (Prod.fst ∘ fun u => fetchResult u dest (atts u) retry)
        = fun u : List Char => u := by
      funext u
      rfl
    rw [hcomp]
    exact List.map_id order
  constructor
  · rw [fetchAll, List.length_map]
    exact hperm.length_eq
  · rw [hfst]
    exact hperm

/-- Concrete instance of `fetchAll_cardinality`: two URLs completing in
reversed order, both failing, still give exactly two results carrying
both URLs. -/
theorem fetchAll_cardinality_witness :
    (["u1".toList, "u2".toList] : List (List Char)) ≠ []
    ∧ (fetchAll DOWNLOAD_DIR (fun _ _ => (Except.error () : Except Unit Unit)) RETRY
        ["u2".toList, "u1".toList]).length
        = (["u1".toList, "u2".toList] : List (List Char)).length
    ∧ ((fetchAll DOWNLOAD_DIR (fun _ _ => (Except.error () : Except Unit Unit)) RETRY
        ["u2".toList, "u1".toList]).map Prod.fst).Perm ["u1".toList, "u2".toList] := by
  have h := fetchAll_cardinality DOWNLOAD_DIR
    (fun _ _ => (Except.error () : Except Unit Unit)) RETRY
    ["u1".toList, "u2".toList] ["u2".toList, "u1".toList] (by decide) (by decide)
  exact ⟨by decide, h.1, h.2⟩

/-! ## Line-handling lemmas -/

/-- The first element surviving `dropWhile p` does not satisfy `p`. -/
theorem dropWhile_cons_head {α : Type} (p : α → Bool) :
    ∀ (l : List α) (a : α) (t : List α), l.dropWhile p = a :: t → p a = false := by
  intro l
  induction l with
  | nil =>
    intro a t h
    rw [List.dropWhile_nil] at h
    exact List.noConfusion h
  | cons b bs ih =>
    intro a t h
    rw [List.dropWhile_cons] at h
    split at h
    · exact ih a t h
    · rename_i hb
      injection h with h1 h2
      rw [← h1]
      simpa using hb

/-- `dropWhile` only removes from the front, so it preserves the last
element whenever the result is non-empty. -/
theorem dropWhile_getLast_eq {α : Type} (p : α → Bool) :
    ∀ l : List α, l.dropWhile p ≠ [] → (l.dropWhile p).getLast? = l.getLast? := by
  intro l
  induction l with
  | nil =>
    intro h
    exact absurd rfl h
  | cons b bs ih =>
    intro h
    rw [List.dropWhile_cons] at h ⊢
    by_cases hb : p b = true
    · rw [if_pos hb] at h ⊢
      rw [ih h]
      cases bs with
      | nil =>
        rw [List.dropWhile_nil] at h
        exact absurd rfl h
      | cons c cs => rw [List.getLast?_cons_cons]
    · rw [if_neg hb]

/-- The last character of a stripped line is not whitespace. -/
theorem pyStrip_getLast_not_space (line : List Char) (a : Char)
    (ha : (pyStrip line).getLast? = some a) : pySpace a = false := by
  rw [pyStrip] at ha
  rw [List.getLast?_reverse] at ha
  cases hz : (line.dropWhile pySpace).reverse.dropWhile pySpace with
  | nil =>
    rw [hz] at ha
    exact Option.noConfusion ha
  | cons c cs =>
    rw [hz] at ha
    rw [List.head?_cons] at ha
    injection ha with hac
    rw [← hac]
    exact dropWhile_cons_head pySpace (line.dropWhile pySpace).reverse c cs hz

/-- The first character of a non-empty stripped line is not whitespace. -/
theorem pyStrip_head_not_space (line : List Char) (h : pyStrip line ≠ []) (a : Char)
    (ha : (pyStrip line).head? = some a) : pySpace a = false := by
  rw [pyStrip] at ha h
  rw [List.head?_reverse] at ha
  have hzne : (line.dropWhile pySpace).reverse.dropWhile pySpace ≠ [] := by
    intro hnil
    apply h
    rw [hnil]
    rfl
  rw [dropWhile_getLast_eq pySpace _ hzne] at ha
  rw [List.getLast?_reverse] at ha
  cases hy : line.dropWhile pySpace with
  | nil =>
    rw [hy] at ha
    exact Option.noConfusion ha
  | cons c cs =>
    rw [hy] at ha
    rw [List.head?_cons] at ha
    injection ha with hac
    rw [← hac]
    exact dropWhile_cons_head pySpace line c cs hy

/-- A line consisting only of whitespace is skipped. -/
theorem procLine_blank (line : List Char) (hall : ∀ c ∈ line, pySpace c = true) :
    procLine line = none := by
  have hy : line.dropWhile pySpace = [] := by
    rw [List.dropWhile_eq_nil_iff]
    exact fun x hx => hall x hx
  have hs : pyStrip line = [] := by
    rw [pyStrip, hy]
    rfl
  simp [procLine, hs]

/-- A line whose first non-whitespace character is `#` is skipped. -/
theorem procLine_comment (line : List Char) (t : List Char)
    (h : line.dropWhile pySpace = '#' :: t) : procLine line = none := by
  have hne : ('#' :: t).reverse.dropWhile pySpace ≠ [] := by
    intro hnil
    have hall := List.dropWhile_eq_nil_iff.mp hnil
    have hmem : '#' ∈ ('#' :: t).reverse := by simp
    have hsp := hall _ hmem
    simp [pySpace] at hsp
  have hhead : (pyStrip line).head? = some '#' := by
    rw [pyStrip, h]
    rw [List.head?_reverse]
    rw [dropWhile_getLast_eq pySpace _ hne]
    rw [List.getLast?_reverse]
    rfl
  cases hs : pyStrip line with
  | nil =>
    rw [hs] at hhead
    exact Option.noConfusion hhead
  | cons c cs =>
    rw [hs] at hhead
    rw [List.head?_cons] at hhead
    injection hhead with hc
    have hsw : startsWithHash (pyStrip line) = true := by
      rw [hs, startsWithHash, hc]
      simp
    simp [procLine, hsw]

/-- Every URL yielded by `read_links` is non-empty and carries no
surrounding whitespace. -/
theorem read_links_clean (lines : List (List Char)) (url : List Char)
    (hmem : url ∈ read_links lines) :
    url ≠ []
    ∧ (∀ a, url.head? = some a → pySpace a = false)
    ∧ (∀ a, url.getLast? = some a → pySpace a = false) := by
  simp only [read_links] at hmem
  rcases List.mem_filterMap.mp hmem with ⟨line, hline, hproc⟩
  simp only [procLine] at hproc
  by_cases hcond : (!(pyStrip line).isEmpty && !startsWithHash (pyStrip line)) = true
  · rw [if_pos hcond] at hproc
    injection hproc with hurl
    subst hurl
    have hne2 : pyStrip line ≠ [] := by
      intro hnil
      rw [hnil] at hcond
      simp at hcond
    exact ⟨hne2, fun a ha => pyStrip_head_not_space line hne2 a ha,
      fun a ha => pyStrip_getLast_not_space line a ha⟩
  · rw [if_neg hcond] at hproc
    exact Option.noConfusion hproc

/-! ## Claim C10 -/

/-- Claim C10: the link reader strips each line before testing it: a
line of only whitespace is skipped, a line whose first non-whitespace
character is `#` is skipped even when the `#` is preceded by spaces, and
every yielded URL string is non-empty and starts and ends with a
non-whitespace character. -/
theorem read_links_line_handling :
    (∀ line : List Char, (∀ c ∈ line, pySpace c = true) → procLine line = none)
    ∧ (∀ (line t : List Char), line.dropWhile pySpace = '#' :: t → procLine line = none)
    ∧ (∀ (lines : List (List Char)) (url : List Char), url ∈ read_links lines →
        url ≠ []
        ∧ (∀ a, url.head? = some a → pySpace a = false)
        ∧ (∀ a, url.getLast? = some a → pySpace a = false)) :=
  ⟨procLine_blank, procLine_comment, read_links_clean⟩

/-- Concrete instance of `read_links_line_handling`: a whitespace-only
line and an indented comment line are skipped, and a line with
surrounding blanks is yielded stripped. -/
theorem read_links_line_handling_witness :
    procLine [' ', '\t'] = none
    ∧ procLine [' ', '#', 'x'] = none
    ∧ (['h', 'i'] ≠ ([] : List Char)
        ∧ (∀ a, (['h', 'i'] : List Char).head? = some a → pySpace a = false)
        ∧ (∀ a, (['h', 'i'] : List Char).getLast? = some a → pySpace a = false)) :=
  ⟨read_links_line_handling.1 [' ', '\t'] (by decide),
   read_links_line_handling.2.1 [' ', '#', 'x'] ['x'] (by decide),
   read_links_line_handling.2.2 [[' ', 'h', 'i', ' ']] ['h', 'i'] (by decide)⟩

/-! ## Claim C6 -/

/-- Claim C6 counterexample: for the URL `https://example.com/files/`
the final path segment — the text after the last slash — is empty, so
the claim prescribes the fallback `download.zip`; but the code
(`Path(url).name`, which collapses the trailing slash) derives the
filename `files`. -/
theorem fname_final_segment_counterexample :
    fetchFname "https://example.com/files/".toList = "files".toList
    ∧ specFname "https://example.com/files/".toList = "download.zip".toList
    ∧ fetchFname "https://example.com/files/".toList
        ≠ specFname "https://example.com/files/".toList := by
  refine ⟨?_, ?_, ?_⟩ <;> decide

/-- Claim C6 amended: the target filename is the last slash-separated
component of the URL that survives `pathlib` parsing (the last component
that is neither empty nor `.`); when no such component exists the fixed
fallback `download.zip` is used.  The chosen component is itself never
empty. -/
theorem fname_pathlib_name (url : List Char) :
    (pathParts url = [] → fetchFname url = "download.zip".toList)
    ∧ (∀ h : pathParts url ≠ [],
        fetchFname url = (pathParts url).getLast h
        ∧ (pathParts url).getLast h ≠ []) := by
  constructor
  · intro hnil
    simp [fetchFname, pathName, hnil]
  · intro h
    have hlast : (pathParts url).getLast? = some ((pathParts url).getLast h) :=
      List.getLast?_eq_getLast _ h
    have hmem : (pathParts url).getLast h ∈ pathParts url := List.getLast_mem h
    have hmem2 : (pathParts url).getLast h
        ∈ (splitSlash url).filter (fun p => !(p.isEmpty || p == ['.'])) := hmem
    have hp : (!(((pathParts url).getLast h).isEmpty
        || (pathParts url).getLast h == ['.'])) = true :=
      (List.mem_filter.mp hmem2).2
    have hxne : (pathParts url).getLast h ≠ [] := by
      intro hxnil
      rw [hxnil] at hp
      simp at hp
    have hgd : pathName url = (pathParts url).getLast h := by
      rw [pathName, List.getLastD_eq_getLast?, hlast]
      rfl
    refine ⟨?_, hxne⟩
    rw [fetchFname, hgd]
    rw [if_neg]
    intro hemp
    exact hxne (List.isEmpty_iff.mp hemp)

/-- Concrete instance of `fname_pathlib_name`: a URL ending in a real
component keeps that component; a URL with no component at all falls
back to `download.zip`. -/
theorem fname_pathlib_name_witness :
    fetchFname "https://example.com/a/b.zip".toList = "b.zip".toList
    ∧ fetchFname "".toList = "download.zip".toList := by
  constructor
  · have h := (fname_pathlib_name "https://example.com/a/b.zip".toList).2 (by decide)
    rw [h.1]
    decide
  · exact (fname_pathlib_name "".toList).1 (by decide)

/-! ## Claim C5 -/

/-- Claim C5: every file path appearing in any bundle came from a
successful download result — failed downloads, whose result path is
`None`, are filtered out before bundling — and the concatenation of the
bundles, in bundle order, equals the success paths in the order the
downloads completed. -/
theorem bundles_only_successes (results : List (List Char × Option (List Char))) :
    (pyChunks BUNDLE_SIZE (successPaths results)).flatten
      = results.filterMap (fun r => r.2)
    ∧ (∀ p, p ∈ (pyChunks BUNDLE_SIZE (successPaths results)).flatten →
        ∃ u, (u, some p) ∈ results) := by
  have hflat : (pyChunks BUNDLE_SIZE (successPaths results)).flatten
      = successPaths results := by
    rw [pyChunks_eq_chunksRec BUNDLE_SIZE (by decide) (successPaths results)]
    exact chunksRec_flatten BUNDLE_SIZE (by decide) _ _ (by omega)
  constructor
  · rw [hflat]
    rfl
  · intro p hp
    rw [hflat] at hp
    have hp2 : p ∈ results.filterMap (fun r => r.2) := hp
    rcases List.mem_filterMap.mp hp2 with ⟨r, hr, hr2⟩
    rcases r with ⟨u, v⟩
    refine ⟨u, ?_⟩
    have hv : v = some p := hr2
    rw [← hv]
    exact hr

/-- Concrete instance of `bundles_only_successes`: with one success and
one failure, the bundles contain exactly the successful path. -/
theorem bundles_only_successes_witness :
    (pyChunks BUNDLE_SIZE (successPaths
        [("u1".toList, some "downloads/a.zip".toList),
         ("u2".toList, (none : Option (List Char)))])).flatten
      = [("u1".toList, some "downloads/a.zip".toList),
         ("u2".toList, (none : Option (List Char)))].filterMap (fun r => r.2)
    ∧ (∀ p, p ∈ (pyChunks BUNDLE_SIZE (successPaths
        [("u1".toList, some "downloads/a.zip".toList),
         ("u2".toList, (none : Option (List Char)))])).flatten →
        ∃ u, (u, some p)
          ∈ [("u1".toList, some "downloads/a.zip".toList),
             ("u2".toList, (none : Option (List Char)))]) :=
  bundles_only_successes
    [("u1".toList, some "downloads/a.zip".toList),
     ("u2".toList, (none : Option (List Char)))]

/-! ## Bundle-loop lemmas -/

theorem bundleLoop_length :
    ∀ (bs : List (List (List Char))) (idx : Nat),
      (bundleLoop bs idx).length = bs.length := by
  intro bs
  induction bs with
  | nil =>
    intro idx
    rfl
  | cons b rest ih =>
    intro idx
    simp [bundleLoop, ih]

theorem bundleLoop_getElem :
    ∀ (bs : List (List (List Char))) (idx i : Nat)
      (h1 : i < bs.length) (h2 : i < (bundleLoop bs idx).length),
      (bundleLoop bs idx)[i] = create_bundle bs[i] (idx + i) := by
  intro bs
  induction bs with
  | nil =>
    intro idx i h1 h2
    exact absurd h1 (by simp)
  | cons b rest ih =>
    intro idx i h1 h2
    cases i with
    | zero => simp [bundleLoop]
    | succ j =>
      have h1j : j < rest.length := by
        rw [List.length_cons] at h1
        omega
      have h2j : j < (bundleLoop rest (idx + 1)).length := by
        rw [bundleLoop_length]
        exact h1j
      simp only [bundleLoop, List.getElem_cons_succ]
      rw [ih (idx + 1) j h1j h2j]
      congr 1
      omega

/-! ## Claim C7 -/

/-- Claim C7: the bundling loop writes exactly one archive per chunk;
the archive for the `i`-th chunk (0-based) has path
`bundles/bundle-<idx>.zip` with the 1-based sequential index `1 + i`
rendered zero-padded to 3 digits, and its members are exactly the
chunk's files under their base filenames (`arcname = f.name`), in chunk
order.  The concrete equalities check the zero padding of the rendered
index. -/
theorem create_bundle_archives (downloaded : List (List Char)) :
    (mainBundles downloaded).length = (pyChunks BUNDLE_SIZE downloaded).length
    ∧ (∀ (i : Nat) (h1 : i < (pyChunks BUNDLE_SIZE downloaded).length)
        (h2 : i < (mainBundles downloaded).length),
        ((mainBundles downloaded).get ⟨i, h2⟩).path = bundlePath (1 + i)
        ∧ ((mainBundles downloaded).get ⟨i, h2⟩).members
            = ((pyChunks BUNDLE_SIZE downloaded).get ⟨i, h1⟩).map pathName)
    ∧ bundlePath 1 = "bundles/bundle-001.zip".toList
    ∧ bundlePath 2 = "bundles/bundle-002.zip".toList
    ∧ bundlePath 12 = "bundles/bundle-012.zip".toList := by
  refine ⟨by rw [mainBundles, bundleLoop_length], ?_, by decide, by decide, by decide⟩
  intro i h1 h2
  have h2b : i < (bundleLoop (pyChunks BUNDLE_SIZE downloaded) 1).length := h2
  have hget : (bundleLoop (pyChunks BUNDLE_SIZE downloaded) 1)[i]
      = create_bundle (pyChunks BUNDLE_SIZE downloaded)[i] (1 + i) :=
    bundleLoop_getElem (pyChunks BUNDLE_SIZE downloaded) 1 i h1 h2b
  constructor
  · rw [List.get_eq_getElem]
    exact congrArg Archive.path hget
  · rw [List.get_eq_getElem, List.get_eq_getElem]
    exact congrArg Archive.members hget

/-- Concrete instance of `create_bundle_archives`: one downloaded file
gives one archive at `bundles/bundle-001.zip` containing `a.zip`. -/
theorem create_bundle_archives_witness :
    (mainBundles ["downloads/a.zip".toList]).length
      = (pyChunks BUNDLE_SIZE ["downloads/a.zip".toList]).length
    ∧ ((mainBundles ["downloads/a.zip".toList]).get ⟨0, by decide⟩).path = bundlePath (1 + 0)
    ∧ ((mainBundles ["downloads/a.zip".toList]).get ⟨0, by decide⟩).members
        = ((pyChunks BUNDLE_SIZE ["downloads/a.zip".toList]).get ⟨0, by decide⟩).map pathName := by
  have h := create_bundle_archives ["downloads/a.zip".toList]
  exact ⟨h.1, (h.2.1 0 (by decide) (by decide)).1, (h.2.1 0 (by decide) (by decide)).2⟩

/-! ## Claim C8 -/

/-- Claim C8: when every download failed, the bundling stage of `main`
takes the `total == 0` early return: it produces zero archives,
terminates normally, and the outcome (`noDownloads`) is distinct from
every archive-producing outcome, so the no-input case is caller-visible
and not confusable with a bundle-write result. -/
theorem empty_downloads_no_bundles (results : List (List Char × Option (List Char)))
    (hall : ∀ r ∈ results, r.2 = (none : Option (List Char))) :
    mainBundleStage (successPaths results) = BundleStage.noDownloads
    ∧ (∀ as : List Archive, mainBundleStage (successPaths results) ≠ BundleStage.made as)
    ∧ (∀ as : List Archive, BundleStage.noDownloads ≠ BundleStage.made as) := by
  have hsp : successPaths results = [] := by
    have hnil : results.filterMap (fun r => r.2) = [] :=
      List.filterMap_eq_nil_iff.mpr hall
    exact hnil
  refine ⟨?_, ?_, ?_⟩
  · rw [hsp]
    rfl
  · intro as hmade
    rw [hsp] at hmade
    exact BundleStage.noConfusion hmade
  · intro as hmade
    exact BundleStage.noConfusion hmade

/-- Concrete instance of `empty_downloads_no_bundles`: a batch whose
single result failed yields the `noDownloads` outcome and no archives. -/
theorem empty_downloads_no_bundles_witness :
    mainBundleStage (successPaths [("u1".toList, (none : Option (List Char)))])
      = BundleStage.noDownloads
    ∧ (∀ as : List Archive,
        mainBundleStage (successPaths [("u1".toList, (none : Option (List Char)))])
          ≠ BundleStage.made as) := by
  have h := empty_downloads_no_bundles [("u1".toList, (none : Option (List Char)))]
    (by decide)
  exact ⟨h.1, h.2.1⟩

/-! ## Claim C9 -/

/-- If the archive writer succeeds on every chunk before position `j`
(counting indices from `idx`) and raises on chunk `j`, the bundling loop
evaluates to exactly that error. -/
theorem bundleLoopE_error {ε : Type} (w : Nat → List (List Char) → Except ε Archive) :
    ∀ (bs : List (List (List Char))) (idx j : Nat) (e : ε) (hj : j < bs.length),
      (∀ (i : Nat) (hi : i < j), isSuccess (w (idx + i) (bs.get ⟨i, by omega⟩)) = true) →
      w (idx + j) (bs.get ⟨j, hj⟩) = Except.error e →
      bundleLoopE w bs idx = Except.error e := by
  intro bs
  induction bs with
  | nil =>
    intro idx j e hj
    exact absurd hj (by simp)
  | cons b rest ih =>
    intro idx j e hj hok hfail
    cases j with
    | zero =>
      have hw : w idx b = Except.error e := hfail
      simp only [bundleLoopE]
      rw [hw]
    | succ k =>
      have h0 : isSuccess (w idx b) = true := hok 0 (by omega)
      cases hwb : w idx b with
      | error e2 =>
        rw [hwb] at h0
        simp [isSuccess] at h0
      | ok a =>
        simp only [bundleLoopE]
        rw [hwb]
        have hjk : k < rest.length := by
          rw [List.length_cons] at hj
          omega
        have hok2 : ∀ (i : Nat) (hi : i < k),
            isSuccess (w (idx + 1 + i) (rest.get ⟨i, by omega⟩)) = true := by
          intro i hi
          have hstep := hok (i + 1) (by omega)
          have hidx : idx + 1 + i = idx + (i + 1) := by omega
          rw [hidx]
          exact hstep
        have hfail2 : w (idx + 1 + k) (rest.get ⟨k, hjk⟩) = Except.error e := by
          have hidx : idx + 1 + k = idx + (k + 1) := by omega
          rw [hidx]
          exact hfail
        rw [ih (idx + 1) k e hjk hok2 hfail2]

/-- Claim C9: an error raised while writing a bundle archive is not
retried and does not silently continue to the next bundle: the bundling
loop of `main` has no handler, so with a writer that succeeds on the
chunks before `j` and raises on chunk `j`, the whole loop evaluates to
exactly that error — it propagates to the caller as a fatal condition. -/
theorem bundle_write_error_propagates {ε : Type}
    (w : Nat → List (List Char) → Except ε Archive)
    (bs : List (List (List Char))) (j : Nat) (e : ε) (hj : j < bs.length)
    (hok : ∀ (i : Nat) (hi : i < j), isSuccess (w (1 + i) (bs.get ⟨i, by omega⟩)) = true)
    (hfail : w (1 + j) (bs.get ⟨j, hj⟩) = Except.error e) :
    bundleLoopE w bs 1 = Except.error e :=
  bundleLoopE_error w bs 1 j e hj hok hfail

/-- Concrete instance of `bundle_write_error_propagates`: a writer that
raises on the first chunk makes the whole bundling loop evaluate to that
error. -/
theorem bundle_write_error_propagates_witness :
    bundleLoopE (fun _ _ => (Except.error () : Except Unit Archive))
      [["downloads/a.zip".toList]] 1 = Except.error () :=
  bundle_write_error_propagates (fun _ _ => (Except.error () : Except Unit Archive))
    [["downloads/a.zip".toList]] 0 () (by decide)
    (fun i hi => absurd hi (Nat.not_lt_zero i)) rfl

end Download
